import Mathlib

/-!
Shallow embedding of the version-inventory reconciliation logic of the
node-version-switcher application.

The embedded code comes from two places:

* the Go backend (`app.go`): the types `NodeVersion`, `NodeVersionInfo`,
  `NodeAPIResponse` and the methods `GetInstalledNodeVersions` and
  `GetAvailableNodeVersions`.  Subprocess output and the remote HTTP
  fetch are modelled as explicit input values (`Except` for the
  subprocess, `RemoteOutcome` for the HTTP/JSON pipeline); a Go runtime
  panic (index out of range) is modelled as the `none` case of an
  `Option` result.

* the React frontend (`App.jsx`): the comparator `compareVersions` and
  the array sort that uses it.  JavaScript numbers produced by
  `parseInt` are modelled by `JsNum` (`num`, `nan` for NaN, `undef` for
  a missing destructured component).

Strings are modelled as `List Char` so that every operation is a plain
computable function.
-/

abbrev Str := List Char

/-- Model of Go `unicode.IsSpace` restricted to the ASCII whitespace
characters that can occur in tool output. -/
def isSpace (c : Char) : Bool :=
  c = ' ' || c = '\t' || c = '\n' || c = '\x0b' || c = '\x0c' || c = '\r'

/-- Drop trailing characters satisfying `isSpace` (right half of Go
`strings.TrimSpace`), defined structurally. -/
def trimRight : Str → Str
  | [] => []
  | c :: cs =>
    let r := trimRight cs
    if r.isEmpty && isSpace c then [] else c :: r

/-- Model of Go `strings.TrimSpace`. -/
def trim (s : Str) : Str :=
  trimRight (s.dropWhile isSpace)

/-- Model of Go `strings.HasPrefix s sub` / the prefix test of a match at
one position. -/
def startsWith : Str → Str → Bool
  | _, [] => true
  | [], _ :: _ => false
  | x :: xs, c :: cs => if x = c then startsWith xs cs else false

/-- Model of Go `strings.Contains s sub`. -/
def containsSub : Str → Str → Bool
  | [], sub => sub.isEmpty
  | x :: xs, sub => startsWith (x :: xs) sub || containsSub xs sub

/-- Model of Go `strings.Split s "\n"` (single-character separator),
accumulator-based. -/
def splitOnCharAux (sep : Char) : Str → Str → List Str
  | [], acc => [acc]
  | c :: cs, acc =>
    if c = sep then acc :: splitOnCharAux sep cs []
    else splitOnCharAux sep cs (acc ++ [c])

/-- Split a string on a separator character, keeping empty segments —
the behaviour of Go `strings.Split` and of JavaScript `split`. -/
def splitOnChar (sep : Char) (s : Str) : List Str :=
  splitOnCharAux sep s []

/-- Split the combined subprocess output into lines (`strings.Split(output, "\n")`). -/
def splitLines (s : Str) : List Str :=
  splitOnChar '\n' s

/-- Model of Go `strings.Replace(s, string(ch), "", 1)`: remove the first
occurrence of the character `ch`. -/
def removeFirst (ch : Char) : Str → Str
  | [] => []
  | x :: xs => if x = ch then xs else x :: removeFirst ch xs

/-- Accumulator for `fields`; `acc` is the token currently being read. -/
def fieldsAux : Str → Str → List Str
  | [], acc => if acc.isEmpty then [] else [acc]
  | c :: cs, acc =>
    if isSpace c then
      if acc.isEmpty then fieldsAux cs [] else acc :: fieldsAux cs []
    else fieldsAux cs (acc ++ [c])

/-- Model of Go `strings.Fields`: split around runs of whitespace. -/
def fields (s : Str) : List Str :=
  fieldsAux s []

/-- Count occurrences of a character. -/
def countChar (ch : Char) : Str → Nat
  | [] => 0
  | x :: xs => (if x = ch then 1 else 0) + countChar ch xs

/-- Model of a Go `map[string]bool` membership test (`installedMap[version]`):
exact string equality, no normalisation. -/
def memStr (v : Str) : List Str → Bool
  | [] => false
  | x :: xs => if v = x then true else memStr v xs

/- ### Data model (Go structs) -/

/-- Go struct `NodeVersion { Version string; IsCurrent bool }`. -/
structure NodeVersion where
  Version : Str
  IsCurrent : Bool
deriving DecidableEq

/-- Go struct `NodeVersionInfo { Version, Status, NpmVersion string }`. -/
structure NodeVersionInfo where
  Version : Str
  Status : Str
  NpmVersion : Str
deriving DecidableEq

/-- Go struct `NodeAPIResponse` as decoded from the remote catalog JSON.
`LTS` is `interface{}` in the source (bool or string); it is never read
by the reconciliation code, so it is modelled as an opaque tag string. -/
structure NodeAPIResponse where
  Version : Str
  Date : Str
  Files : List Str
  LTS : Option Str
  Npm : Str
deriving DecidableEq

/- ### GetInstalledNodeVersions -/

/-- One iteration of the line loop of `GetInstalledNodeVersions`
(app.go).  Result `none` models a Go runtime panic
(`strings.Fields(line)[0]` on a line with no fields), `some none` models
`continue` (line skipped), `some (some v)` models an appended record. -/
def parseLine (rawLine : Str) : Option (Option NodeVersion) :=
  let line := trim rawLine
  if line.isEmpty || containsSub line ['-', '>'] ||
      containsSub line "default".toList || containsSub line "system".toList then
    some none
  else
    let isCurrent : Bool := line.head? = some '*'
    let line := if line.head? = some '*' then trim (removeFirst '*' line) else line
    match fields line with
    | [] => none
    | tok :: _ => some (some { Version := tok, IsCurrent := isCurrent })

/-- The whole line loop of `GetInstalledNodeVersions`; `none` models a
panic at some line. -/
def parseInstalledLines : List Str → Option (List NodeVersion)
  | [] => some []
  | l :: ls =>
    match parseLine l, parseInstalledLines ls with
    | none, _ => none
    | some none, rest => rest
    | some (some _), none => none
    | some (some v), some vs => some (v :: vs)

/-- Model of `GetInstalledNodeVersions`.  The argument is the result of
`executeNvmCommand("ls")`: `.error e` when the subprocess failed (with
`e` the error message formatted by `%v`), `.ok text` its combined
output otherwise.  The outer `Option` models a runtime panic. -/
def GetInstalledNodeVersions (lsOutput : Except Str Str) :
    Option (Except Str (List NodeVersion)) :=
  match lsOutput with
  | .error e => some (.error ("Error fetching installed versions: ".toList ++ e))
  | .ok text =>
    match parseInstalledLines (splitLines text) with
    | none => none
    | some vs => some (.ok vs)

/- ### The version regular expression and the available-versions text parse -/

/-- A character of the RE2 class `\w` (`[0-9A-Za-z_]`), used by the word
boundary `\b`. -/
def isWordChar (c : Char) : Bool :=
  c.isDigit || c.isAlpha || c = '_'

/-- Try to match `\d+\.\d+\.\d+\b` at the head of `s` (the leading `\b`
is checked by the caller).  Returns the matched text and the rest. -/
def semverAt (s : Str) : Option (Str × Str) :=
  let d1 := s.takeWhile Char.isDigit
  let r1 := s.dropWhile Char.isDigit
  if d1.isEmpty then none else
  match r1 with
  | '.' :: r2 =>
    let d2 := r2.takeWhile Char.isDigit
    let r3 := r2.dropWhile Char.isDigit
    if d2.isEmpty then none else
    match r3 with
    | '.' :: r4 =>
      let d3 := r4.takeWhile Char.isDigit
      let r5 := r4.dropWhile Char.isDigit
      if d3.isEmpty then none else
      match r5 with
      | [] => some (d1 ++ '.' :: (d2 ++ '.' :: d3), [])
      | c :: _ => if isWordChar c then none else some (d1 ++ '.' :: (d2 ++ '.' :: d3), r5)
    | _ => none
  | _ => none

/-- Scanner for `FindAllString` of `\b\d+\.\d+\.\d+\b`: walk the string,
trying a match at every word boundary, continuing after each match.
`fuel` bounds the recursion (each step consumes at least one character). -/
def findAllAux : Nat → Bool → Str → List Str
  | 0, _, _ => []
  | _ + 1, _, [] => []
  | fuel + 1, prevWord, c :: rest =>
    if prevWord then findAllAux fuel (isWordChar c) rest
    else
      match semverAt (c :: rest) with
      | some (m, r) => m :: findAllAux fuel true r
      | none => findAllAux fuel (isWordChar c) rest

/-- Model of `versionRegex.FindAllString(line, -1)` for the pattern
`\b\d+\.\d+\.\d+\b`. -/
def findAllSemver (s : Str) : List Str :=
  findAllAux s.length false s

/-- One iteration of the line loop of the fallback branch of
`GetAvailableNodeVersions`: skip blank lines and lines containing
`"CURRENT"` or `"-"`, otherwise emit one entry per regex match. -/
def availableEntriesOfLine (installedMap : List Str) (rawLine : Str) :
    List NodeVersionInfo :=
  let line := trim rawLine
  if line.isEmpty || containsSub line "CURRENT".toList || containsSub line ['-'] then
    []
  else
    (findAllSemver line).map fun version =>
      { Version := version
        Status := if memStr version installedMap then "Installed".toList
                  else "Not Installed".toList
        NpmVersion := "unknown".toList }

/-- Concatenation of the per-line entries, in line order. -/
def concatMapLines (f : Str → List NodeVersionInfo) : List Str → List NodeVersionInfo
  | [] => []
  | l :: ls => f l ++ concatMapLines f ls

/-- The text-based parse of the fallback branch of
`GetAvailableNodeVersions` (spec operation `ParseAvailableFromText`). -/
def ParseAvailableFromText (text : Str) (installedMap : List Str) :
    List NodeVersionInfo :=
  concatMapLines (availableEntriesOfLine installedMap) (splitLines text)

/- ### GetAvailableNodeVersions -/

/-- Outcome of reading and JSON-decoding the body of a 200 response. -/
inductive BodyOutcome where
  | readError (msg : Str)
  | jsonError (msg : Str)
  | ok (records : List NodeAPIResponse)
deriving DecidableEq

/-- Outcome of `http.Get("https://nodejs.org/dist/index.json")`:
either the call itself errored, or it produced a status code and
(when the caller reads it) a body outcome. -/
inductive RemoteOutcome where
  | getError (msg : Str)
  | response (statusCode : Nat) (body : BodyOutcome)
deriving DecidableEq

/-- The installed map used for status annotation: the version strings of
an installed-versions result. -/
def installedMapOf (ivs : List NodeVersion) : List Str :=
  ivs.map (·.Version)

/-- The catalog branch of `GetAvailableNodeVersions`: one entry per API
record, status from the installed map, npm version copied verbatim. -/
def catalogVersions (records : List NodeAPIResponse) (installedMap : List Str) :
    List NodeVersionInfo :=
  records.map fun r =>
    { Version := r.Version
      Status := if memStr r.Version installedMap then "Installed".toList
                else "Not Installed".toList
      NpmVersion := r.Npm }

/-- The fallback branch of `GetAvailableNodeVersions`: run
`nvm ls available`, fetch the installed versions, and parse the text. -/
def fallbackAvailable (lsAvailable lsInstalled : Except Str Str) :
    Option (Except Str (List NodeVersionInfo)) :=
  match lsAvailable with
  | .error e => some (.error ("Error fetching available versions: ".toList ++ e))
  | .ok text =>
    match GetInstalledNodeVersions lsInstalled with
    | none => none
    | some (.error e) => some (.error ("Error fetching installed versions: ".toList ++ e))
    | some (.ok ivs) => some (.ok (ParseAvailableFromText text (installedMapOf ivs)))

/-- Model of `GetAvailableNodeVersions`.  `remote` is the outcome of the
HTTP fetch, `lsAvailable` the result of `executeNvmCommand("ls", "available")`,
`lsInstalled` the result of `executeNvmCommand("ls")` consumed by the
inner `GetInstalledNodeVersions` call. -/
def GetAvailableNodeVersions (remote : RemoteOutcome)
    (lsAvailable lsInstalled : Except Str Str) :
    Option (Except Str (List NodeVersionInfo)) :=
  match remote with
  | .getError _ => fallbackAvailable lsAvailable lsInstalled
  | .response code body =>
    if code = 200 then
      match body with
      | .readError _ => fallbackAvailable lsAvailable lsInstalled
      | .jsonError _ => fallbackAvailable lsAvailable lsInstalled
      | .ok records =>
        match GetInstalledNodeVersions lsInstalled with
        | none => none
        | some (.error e) =>
          some (.error ("Error fetching installed versions: ".toList ++ e))
        | some (.ok ivs) =>
          some (.ok (catalogVersions records (installedMapOf ivs)))
    else fallbackAvailable lsAvailable lsInstalled

/-- A remote outcome that counts as a failure of the catalog source: the
GET errored, the status was not 200, the body could not be read, or the
body failed to parse as JSON. -/
def isRemoteFailure : RemoteOutcome → Bool
  | .getError _ => true
  | .response code body =>
    if code = 200 then
      match body with
      | .ok _ => false
      | _ => true
    else true

/- ### Frontend comparator (App.jsx) -/

/-- A JavaScript number-ish value as it flows through `compareVersions`:
a finite number, `NaN`, or `undefined` (a missing destructured array
component). -/
inductive JsNum where
  | num (n : Int)
  | posInf
  | negInf
  | nan
  | undef
deriving DecidableEq

/-- Number of binary digits of `m`, by structural recursion on a fuel
bound (the first argument). -/
def bitLenAux : Nat → Nat → Nat
  | 0, _ => 0
  | fuel + 1, m => if m = 0 then 0 else bitLenAux fuel (m / 2) + 1

/-- Number of binary digits of `n`; the fuel `1100` covers every value
below the double overflow threshold `2^1024`, the only range in which
`roundNat` is consulted. -/
def bitLen (n : Nat) : Nat :=
  bitLenAux 1100 n

/-- Round a natural number to the nearest IEEE-754 double value (round
half to even at 53 significant bits).  For `n < 2^53` the value is
exact; otherwise the low `k = bitLen n - 53` bits are rounded away. -/
def roundNat (n : Nat) : Nat :=
  if n < 2 ^ 53 then n
  else
    let k := bitLen n - 53
    let q := n / 2 ^ k
    let r := n % 2 ^ k
    let half := 2 ^ (k - 1)
    if r < half then q * 2 ^ k
    else if half < r then (q + 1) * 2 ^ k
    else if q % 2 = 0 then q * 2 ^ k else (q + 1) * 2 ^ k

/-- The double a JavaScript engine produces for the exact integer value
`z`: exact below `2^53` in magnitude, correctly rounded (half to even)
above it, and `±Infinity` from `2^1024 - 2^970` upward (beyond the
largest finite double). -/
def doubleOfInt (z : Int) : JsNum :=
  if z.natAbs < 2 ^ 53 then .num z
  else if 2 ^ 1024 - 2 ^ 970 ≤ z.natAbs then (if z < 0 then .negInf else .posInf)
  else if z < 0 then .num (-(roundNat z.natAbs : Int))
  else .num ((roundNat z.natAbs : Int))

/-- JavaScript strict inequality `!==` on such values: `NaN !== NaN` is
true, `undefined !== undefined` is false, equal infinities are equal,
values of different kinds are unequal.  Comparing two `num` values by
their integers is exact because every `num` carries an (integer-valued)
double that is already rounded. -/
def jsStrictNeq : JsNum → JsNum → Bool
  | .num a, .num b => a ≠ b
  | .posInf, .posInf => false
  | .negInf, .negInf => false
  | .undef, .undef => false
  | _, _ => true

/-- JavaScript subtraction on such values: double subtraction is the
exact difference rounded again; infinities follow IEEE rules
(`∞ - ∞ = NaN`); any `NaN`/`undefined` operand gives `NaN`. -/
def jsSub : JsNum → JsNum → JsNum
  | .num a, .num b => doubleOfInt (a - b)
  | .posInf, .num _ => .posInf
  | .num _, .posInf => .negInf
  | .negInf, .num _ => .negInf
  | .num _, .negInf => .posInf
  | .posInf, .negInf => .posInf
  | .negInf, .posInf => .negInf
  | _, _ => .nan

/-- Exact numeric value of a digit string (the mathematical value
`parseInt` computes before it is represented as a double). -/
def digitsToNat (ds : Str) : Nat :=
  ds.foldl (fun a c => a * 10 + (c.toNat - '0'.toNat)) 0

/-- The longest leading digit run, or `none` if there is none. -/
def digitsVal (s : Str) : Option Nat :=
  match s.takeWhile Char.isDigit with
  | [] => none
  | ds => some (digitsToNat ds)

/-- Model of JavaScript `parseInt(s, 10)`: skip leading whitespace, an
optional sign, then the longest digit run; `NaN` when no digits follow.
The result is the digit value as a double (`doubleOfInt`), so distinct
integers at or above `2^53` can collapse to the same number. -/
def parseIntJS (s : Str) : JsNum :=
  match s.dropWhile isSpace with
  | '-' :: r =>
    match digitsVal r with
    | some n => doubleOfInt (-(n : Int))
    | none => .nan
  | '+' :: r =>
    match digitsVal r with
    | some n => doubleOfInt (n : Int)
    | none => .nan
  | t =>
    match digitsVal t with
    | some n => doubleOfInt (n : Int)
    | none => .nan

/-- `parseVersion` of App.jsx: split on `'.'`, `parseInt` each part, and
destructure the first three components (missing ones are `undefined`). -/
def parseVersion (v : Str) : JsNum × JsNum × JsNum :=
  let parts := (splitOnChar '.' v).map parseIntJS
  (parts.getD 0 .undef, parts.getD 1 .undef, parts.getD 2 .undef)

/-- `compareVersions` of App.jsx, on the version strings (the callers
apply it to the `Version` field of each record). -/
def compareVersions (a b : Str) : JsNum :=
  let pa := parseVersion a
  let pb := parseVersion b
  if jsStrictNeq pa.1 pb.1 then jsSub pb.1 pa.1
  else if jsStrictNeq pa.2.1 pb.2.1 then jsSub pb.2.1 pa.2.1
  else jsSub pb.2.2 pa.2.2

/-- How `Array.prototype.sort` consumes a comparator result: `a` may
stay before `b` unless the result is greater than zero — a positive
number or `+Infinity` (zero, `-Infinity` and `NaN` keep the relative
order). -/
def jsLeB : JsNum → Bool
  | .num n => n ≤ 0
  | .posInf => false
  | _ => true

/-- Insertion step of the sort model. -/
def insertCmp (le : Str → Str → Bool) (x : Str) : List Str → List Str
  | [] => [x]
  | y :: ys => if le x y then x :: y :: ys else y :: insertCmp le x ys

/-- Sort model for `array.sort(compareVersions)`. -/
def sortCmp (le : Str → Str → Bool) : List Str → List Str
  | [] => []
  | x :: xs => insertCmp le x (sortCmp le xs)

/-- `versions.sort(compareVersions)` of App.jsx on version strings. -/
def sortVersions (l : List Str) : List Str :=
  sortCmp (fun a b => jsLeB (compareVersions a b)) l

/-- A well-formed `"X.Y.Z"` version string: exactly three dot-separated
non-empty digit groups. -/
def wellFormedVer (v : Str) : Bool :=
  match splitOnChar '.' v with
  | [a, b, c] =>
    !a.isEmpty && !b.isEmpty && !c.isEmpty &&
      a.all Char.isDigit && b.all Char.isDigit && c.all Char.isDigit
  | _ => false

/-- The (major, minor, patch) value of a well-formed version string. -/
def semTriple (v : Str) : Nat × Nat × Nat :=
  match splitOnChar '.' v with
  | [a, b, c] => (digitsToNat a, digitsToNat b, digitsToNat c)
  | _ => (0, 0, 0)

/-- Descending semantic-version precedence: `p` sorts no later than `q`
when `p`'s triple is lexicographically at least `q`'s. -/
def semGe (p q : Nat × Nat × Nat) : Prop :=
  q.1 < p.1 ∨ (p.1 = q.1 ∧ (q.2.1 < p.2.1 ∨ (p.2.1 = q.2.1 ∧ q.2.2 ≤ p.2.2)))

/-- Count of records satisfying a Boolean predicate. -/
def countRecords (p : NodeVersion → Bool) : List NodeVersion → Nat
  | [] => 0
  | v :: vs => (if p v then 1 else 0) + countRecords p vs

/-- Count of lines satisfying a Boolean predicate. -/
def countLines (p : Str → Bool) : List Str → Nat
  | [] => 0
  | l :: ls => (if p l then 1 else 0) + countLines p ls

/- ### Helper lemmas -/

theorem memStr_iff (v : Str) (l : List Str) : memStr v l = true ↔ v ∈ l := by
  induction l with
  | nil => simp [memStr]
  | cons x xs ih =>
    by_cases h : v = x
    · simp [memStr, h]
    · simp [memStr, h, ih]

theorem startsWith_iff_ex (s sub : Str) :
    startsWith s sub = true ↔ ∃ t, s = sub ++ t := by
  induction sub generalizing s with
  | nil => simp [startsWith]
  | cons c cs ih =>
    cases s with
    | nil =>
      simp only [startsWith]
      constructor
      · intro h; exact Bool.noConfusion h
      · rintro ⟨t, ht⟩; exact absurd ht (by simp)
    | cons x xs =>
      simp only [startsWith]
      by_cases h : x = c
      · subst h
        rw [if_pos rfl, ih]
        constructor
        · rintro ⟨t, rfl⟩; exact ⟨t, rfl⟩
        · rintro ⟨t, ht⟩
          injection ht with h1 h2
          exact ⟨t, h2⟩
      · rw [if_neg h]
        constructor
        · intro hf; exact Bool.noConfusion hf
        · rintro ⟨t, ht⟩
          injection ht with h1 h2
          exact absurd h1 h

theorem containsSub_iff_ex (s sub : Str) :
    containsSub s sub = true ↔ ∃ p t, s = p ++ sub ++ t := by
  induction s with
  | nil =>
    simp only [containsSub, List.isEmpty_iff]
    constructor
    · rintro rfl; exact ⟨[], [], rfl⟩
    · rintro ⟨p, t, h⟩
      rcases List.append_eq_nil.mp h.symm with ⟨hp, hst⟩
      exact (List.append_eq_nil.mp hp).2
  | cons x xs ih =>
    simp only [containsSub, Bool.or_eq_true, startsWith_iff_ex, ih]
    constructor
    · rintro (⟨t, ht⟩ | ⟨p, t, rfl⟩)
      · exact ⟨[], t, by simpa using ht⟩
      · exact ⟨x :: p, t, by simp⟩
    · rintro ⟨p, t, hp⟩
      cases p with
      | nil => exact Or.inl ⟨t, by simpa using hp⟩
      | cons y ys =>
        simp only [List.cons_append, List.cons.injEq] at hp
        exact Or.inr ⟨ys, t, hp.2⟩

theorem containsSub_dropWhile (d : Char) (ds l : Str) (hd : isSpace d = false)
    (h : containsSub l (d :: ds) = true) :
    containsSub (l.dropWhile isSpace) (d :: ds) = true := by
  induction l with
  | nil => exact absurd h (by simp [containsSub])
  | cons x xs ih =>
    by_cases hx : isSpace x
    · rw [List.dropWhile_cons_of_pos hx]
      apply ih
      rcases (Bool.or_eq_true _ _).mp h with hs | hc
      · exfalso
        rcases (startsWith_iff_ex _ _).mp hs with ⟨t, ht⟩
        injection ht with h1 h2
        rw [h1, hd] at hx
        exact Bool.noConfusion hx
      · exact hc
    · rwa [List.dropWhile_cons_of_neg hx]

theorem trimRight_append_or (u t : Str) :
    trimRight (u ++ t) = u ++ trimRight t ∨
      (trimRight (u ++ t) = trimRight u ∧ trimRight t = []) := by
  induction u with
  | nil => exact Or.inl rfl
  | cons c cs ih =>
    have hu : trimRight ((c :: cs) ++ t) =
        (if (trimRight (cs ++ t)).isEmpty && isSpace c then []
         else c :: trimRight (cs ++ t)) := rfl
    have hv : trimRight (c :: cs) =
        (if (trimRight cs).isEmpty && isSpace c then [] else c :: trimRight cs) := rfl
    rcases ih with h | ⟨h1, h2⟩
    · by_cases he : (trimRight (cs ++ t)).isEmpty = true
      · have hcs : cs = [] ∧ trimRight t = [] := by
          rw [h] at he
          exact List.append_eq_nil.mp (List.isEmpty_iff.mp he)
        right
        refine ⟨?_, hcs.2⟩
        rw [hu, hv, h, hcs.1, hcs.2]
        rfl
      · left
        rw [hu, h]
        have he' : (cs ++ trimRight t).isEmpty = false := by
          rw [h] at he
          exact Bool.of_not_eq_true he
        rw [he']
        simp
    · right
      refine ⟨?_, h2⟩
      rw [hu, hv, h1]

theorem trimRight_all_nonspace (u : Str) (h : ∀ c ∈ u, isSpace c = false) :
    trimRight u = u := by
  induction u with
  | nil => rfl
  | cons c cs ih =>
    have hc : isSpace c = false := h c (by simp)
    have hcs : trimRight cs = cs := ih fun x hx => h x (by simp [hx])
    show (if (trimRight cs).isEmpty && isSpace c then [] else c :: trimRight cs) = c :: cs
    rw [hcs, hc]
    simp

theorem containsSub_trimRight (sub l : Str) (hne : sub ≠ [])
    (hns : ∀ c ∈ sub, isSpace c = false) (h : containsSub l sub = true) :
    containsSub (trimRight l) sub = true := by
  rcases (containsSub_iff_ex _ _).mp h with ⟨p, t, rfl⟩
  rcases trimRight_append_or (p ++ sub) t with h1 | ⟨h1, h2⟩
  · rw [h1]
    exact (containsSub_iff_ex _ _).mpr ⟨p, trimRight t, rfl⟩
  · rw [h1]
    rcases trimRight_append_or p sub with h3 | ⟨h3, h4⟩
    · rw [h3, trimRight_all_nonspace sub hns]
      exact (containsSub_iff_ex _ _).mpr ⟨p, [], by simp⟩
    · rw [trimRight_all_nonspace sub hns] at h4
      exact absurd h4 hne

theorem containsSub_trim (sub l : Str) (hne : sub ≠ [])
    (hns : ∀ c ∈ sub, isSpace c = false) (h : containsSub l sub = true) :
    containsSub (trim l) sub = true := by
  rcases sub with _ | ⟨d, ds⟩
  · exact absurd rfl hne
  · exact containsSub_trimRight _ _ hne hns
      (containsSub_dropWhile d ds l (hns d (by simp)) h)

theorem catalogVersions_status (records : List NodeAPIResponse) (S : List Str) :
    ∀ e ∈ catalogVersions records S,
      (e.Status = "Installed".toList ↔ e.Version ∈ S) := by
  intro e he
  simp only [catalogVersions, List.mem_map] at he
  obtain ⟨r, _, rfl⟩ := he
  by_cases h : memStr r.Version S = true
  · simp only [h, if_pos rfl]
    simp [(memStr_iff _ _).mp h]
  · have hb : memStr r.Version S = false := Bool.of_not_eq_true h
    have hmem : r.Version ∉ S := fun hm => h ((memStr_iff _ _).mpr hm)
    simp only [hb]
    simp only [Bool.false_eq_true, if_neg Bool.false_ne_true]
    constructor
    · intro hst
      exact absurd hst (by decide)
    · intro hm
      exact absurd hm hmem

theorem availableEntriesOfLine_status (S : List Str) (line : Str) :
    ∀ e ∈ availableEntriesOfLine S line,
      (e.Status = "Installed".toList ↔ e.Version ∈ S) := by
  intro e he
  simp only [availableEntriesOfLine] at he
  by_cases hskip : (trim line).isEmpty || containsSub (trim line) "CURRENT".toList ||
      containsSub (trim line) ['-']
  · rw [if_pos hskip] at he
    exact absurd he (List.not_mem_nil e)
  · rw [if_neg hskip] at he
    simp only [List.mem_map] at he
    obtain ⟨v, _, rfl⟩ := he
    by_cases h : memStr v S = true
    · simp only [h, if_pos rfl]
      simp [(memStr_iff _ _).mp h]
    · have hb : memStr v S = false := Bool.of_not_eq_true h
      have hmem : v ∉ S := fun hm => h ((memStr_iff _ _).mpr hm)
      simp only [hb]
      simp only [Bool.false_eq_true, if_neg Bool.false_ne_true]
      constructor
      · intro hst
        exact absurd hst (by decide)
      · intro hm
        exact absurd hm hmem

theorem concatMapLines_status (S : List Str) (ls : List Str) :
    ∀ e ∈ concatMapLines (availableEntriesOfLine S) ls,
      (e.Status = "Installed".toList ↔ e.Version ∈ S) := by
  intro e he
  induction ls with
  | nil => exact absurd he (List.not_mem_nil e)
  | cons l rest ih =>
    simp only [concatMapLines, List.mem_append] at he
    rcases he with h | h
    · exact availableEntriesOfLine_status S l e h
    · exact ih h

/- ### Claim theorems -/

/-- Claim C3 (code bug evaluation): a marker-only line — `"*"` alone,
which survives the empty/noise filters — makes `GetInstalledNodeVersions`
panic (`strings.Fields(line)[0]` on an empty slice, modelled as `none`)
instead of being skipped; the same input without the marker-only line
parses fine, showing the panic is caused by that line alone. -/
theorem c3_marker_only_line_panics :
    GetInstalledNodeVersions (.ok "*\n18.16.0".toList) = none ∧
    GetInstalledNodeVersions (.ok "18.16.0".toList) =
      some (.ok [{ Version := "18.16.0".toList, IsCurrent := false }]) := by
  exact ⟨rfl, rfl⟩

/-- Claim C4: whenever the remote catalog source fails (HTTP GET error,
non-200 status, unreadable body, or JSON parse failure),
`GetAvailableNodeVersions` returns exactly the result of the fallback
chain (`nvm ls available` plus the text parse); the remote failure is
never surfaced on its own. -/
theorem c4_remote_failure_falls_back (remote : RemoteOutcome)
    (lsAvailable lsInstalled : Except Str Str)
    (h : isRemoteFailure remote = true) :
    GetAvailableNodeVersions remote lsAvailable lsInstalled =
      fallbackAvailable lsAvailable lsInstalled := by
  cases remote with
  | getError msg => rfl
  | response code body =>
    by_cases hc : code = 200
    · subst hc
      cases body with
      | readError m => simp [GetAvailableNodeVersions]
      | jsonError m => simp [GetAvailableNodeVersions]
      | ok records => simp [isRemoteFailure] at h
    · simp [GetAvailableNodeVersions, hc]

/-- Witness for C4 at a concrete failing fetch and concrete subprocess
outputs. -/
theorem c4_witness :
    isRemoteFailure (.getError "no such host".toList) = true ∧
    GetAvailableNodeVersions (.getError "no such host".toList)
        (.ok "   16.0.0\n   14.17.0\n".toList) (.ok "  16.0.0\n".toList) =
      fallbackAvailable (.ok "   16.0.0\n   14.17.0\n".toList) (.ok "  16.0.0\n".toList) :=
  ⟨rfl, c4_remote_failure_falls_back _ _ _ rfl⟩

/-- Claim C7: the text-based available-versions parse is deterministic
and idempotent — two calls on equal input text and equal installed sets
return equal entry sequences (the parse is a pure function of the pair). -/
theorem c7_text_parse_deterministic (t₁ t₂ : Str) (S₁ S₂ : List Str)
    (ht : t₁ = t₂) (hS : S₁ = S₂) :
    ParseAvailableFromText t₁ S₁ = ParseAvailableFromText t₂ S₂ := by
  subst ht
  subst hS
  rfl

/-- Witness for C7 at a concrete text and installed set. -/
theorem c7_witness :
    "   14.17.0   LTS\n   16.0.0\n".toList = "   14.17.0   LTS\n   16.0.0\n".toList ∧
    ParseAvailableFromText "   14.17.0   LTS\n   16.0.0\n".toList ["16.0.0".toList] =
      ParseAvailableFromText "   14.17.0   LTS\n   16.0.0\n".toList ["16.0.0".toList] :=
  ⟨rfl, c7_text_parse_deterministic _ _ _ _ rfl rfl⟩

/-- Claim C9: the installed-status annotation of the catalog branch
compares version strings by exact equality with no normalisation — a
catalog record whose version differs from an installed version only by a
leading `'v'` is annotated `"Not Installed"`. -/
theorem c9_no_normalisation (S : List Str) (v : Str) (date : Str)
    (files : List Str) (lts : Option Str) (npm : Str)
    (_hin : v ∈ S) (hout : ('v' :: v) ∉ S) :
    catalogVersions [{ Version := 'v' :: v, Date := date, Files := files, LTS := lts, Npm := npm }] S =
      [{ Version := 'v' :: v, Status := "Not Installed".toList, NpmVersion := npm }] := by
  have hb : memStr ('v' :: v) S = false := by
    cases h : memStr ('v' :: v) S with
    | false => rfl
    | true => exact absurd ((memStr_iff _ _).mp h) hout
  simp [catalogVersions, hb]

/-- Witness for C9: `"18.16.0"` is installed, the catalog offers
`"v18.16.0"`, and the entry comes back `"Not Installed"`. -/
theorem c9_witness :
    "18.16.0".toList ∈ ["18.16.0".toList] ∧
    catalogVersions [{ Version := 'v' :: "18.16.0".toList, Date := [], Files := [], LTS := none, Npm := "9.5.1".toList }] ["18.16.0".toList] =
      [{ Version := 'v' :: "18.16.0".toList, Status := "Not Installed".toList, NpmVersion := "9.5.1".toList }] :=
  ⟨by decide, c9_no_normalisation _ _ _ _ _ _ (by decide) (by decide)⟩

/-- Claim C10: an input line of the fallback text parse that contains
the substring `"CURRENT"` or the character `'-'` anywhere is discarded
whole: it yields zero catalog entries, so no version substring of it
reaches the output. -/
theorem c10_noise_line_yields_nothing (S : List Str) (line : Str)
    (h : containsSub line "CURRENT".toList = true ∨ containsSub line ['-'] = true) :
    availableEntriesOfLine S line = [] := by
  simp only [availableEntriesOfLine]
  rcases h with h | h
  · rw [containsSub_trim _ _ (by decide) (by decide) h]
    simp
  · rw [containsSub_trim _ _ (by decide) (by decide) h]
    simp

/-- Witness for C10: a nightly-build line containing `'-'` (and a
version-shaped substring) yields no entries. -/
theorem c10_witness :
    containsSub "  v1.2.3-nightly  ".toList ['-'] = true ∧
    availableEntriesOfLine [] "  v1.2.3-nightly  ".toList = [] :=
  ⟨by decide, c10_noise_line_yields_nothing _ _ (Or.inr (by decide))⟩

theorem fallbackAvailable_status (lsAvailable lsInstalled : Except Str Str)
    (ivs : List NodeVersion) (entries : List NodeVersionInfo)
    (hGI : GetInstalledNodeVersions lsInstalled = some (.ok ivs))
    (h : fallbackAvailable lsAvailable lsInstalled = some (.ok entries)) :
    ∀ e ∈ entries, (e.Status = "Installed".toList ↔ e.Version ∈ installedMapOf ivs) := by
  cases lsAvailable with
  | error msg => exact absurd h (by simp [fallbackAvailable])
  | ok text =>
    simp only [fallbackAvailable, hGI] at h
    simp only [Option.some.injEq, Except.ok.injEq] at h
    rw [← h]
    exact concatMapLines_status (installedMapOf ivs) (splitLines text)

/-- Claim C1: every entry returned by `GetAvailableNodeVersions` — on the
catalog branch and on the text-fallback branch alike — has status
`"Installed"` exactly when its version string belongs to the installed
set captured for that call. -/
theorem c1_status_iff_installed (remote : RemoteOutcome)
    (lsAvailable lsInstalled : Except Str Str) (ivs : List NodeVersion)
    (entries : List NodeVersionInfo)
    (hGI : GetInstalledNodeVersions lsInstalled = some (.ok ivs))
    (hGA : GetAvailableNodeVersions remote lsAvailable lsInstalled = some (.ok entries)) :
    ∀ e ∈ entries, (e.Status = "Installed".toList ↔ e.Version ∈ installedMapOf ivs) := by
  cases remote with
  | getError msg =>
    exact fallbackAvailable_status _ _ _ _ hGI hGA
  | response code body =>
    by_cases hc : code = 200
    · subst hc
      cases body with
      | readError m => exact fallbackAvailable_status _ _ _ _ hGI hGA
      | jsonError m => exact fallbackAvailable_status _ _ _ _ hGI hGA
      | ok records =>
        simp [GetAvailableNodeVersions, hGI] at hGA
        rw [← hGA]
        exact catalogVersions_status records (installedMapOf ivs)
    · simp only [GetAvailableNodeVersions, if_neg hc] at hGA
      exact fallbackAvailable_status _ _ _ _ hGI hGA

/-- Witness for C1 on the catalog branch: `"16.0.0"` is installed,
the catalog offers `"v18.16.0"` and `"16.0.0"`, and exactly the latter
entry is `"Installed"`. -/
theorem c1_witness :
    GetInstalledNodeVersions (.ok "  16.0.0\n".toList) =
      some (.ok [{ Version := "16.0.0".toList, IsCurrent := false }]) ∧
    (∀ e ∈ catalogVersions
        [{ Version := "v18.16.0".toList, Date := [], Files := [], LTS := none, Npm := "9.5.1".toList },
         { Version := "16.0.0".toList, Date := [], Files := [], LTS := none, Npm := "7.10.0".toList }]
        (installedMapOf [{ Version := "16.0.0".toList, IsCurrent := false }]),
      (e.Status = "Installed".toList ↔
        e.Version ∈ installedMapOf [{ Version := "16.0.0".toList, IsCurrent := false }])) :=
  ⟨rfl,
   c1_status_iff_installed
     (.response 200 (.ok
        [{ Version := "v18.16.0".toList, Date := [], Files := [], LTS := none, Npm := "9.5.1".toList },
         { Version := "16.0.0".toList, Date := [], Files := [], LTS := none, Npm := "7.10.0".toList }]))
     (.ok [] ) (.ok "  16.0.0\n".toList) _ _ rfl rfl⟩

theorem parseLine_isCurrent_star (l : Str) (v : NodeVersion)
    (h : parseLine l = some (some v)) (hc : v.IsCurrent = true) :
    (trim l).head? = some '*' := by
  by_cases hstar : (trim l).head? = some '*'
  · exact hstar
  · exfalso
    simp [parseLine, hstar] at h
    split at h
    · exact absurd h (fun hh => Option.noConfusion (Option.some.inj hh))
    · split at h
      · exact Option.noConfusion h
      · simp only [Option.some.injEq] at h
        rw [← h] at hc
        exact Bool.noConfusion hc

theorem parseInstalledLines_current_count (ls : List Str) (vs : List NodeVersion)
    (h : parseInstalledLines ls = some vs) :
    countRecords (·.IsCurrent) vs ≤
      countLines (fun l => decide ((trim l).head? = some '*')) ls := by
  induction ls generalizing vs with
  | nil =>
    simp only [parseInstalledLines, Option.some.injEq] at h
    rw [← h]
    exact Nat.le_refl 0
  | cons l ls ih =>
    simp only [parseInstalledLines] at h
    cases hp : parseLine l with
    | none => rw [hp] at h; exact absurd h (by simp)
    | some o =>
      cases o with
      | none =>
        rw [hp] at h
        have hrec := ih vs h
        simp only [countLines]
        split
        · omega
        · omega
      | some v' =>
        rw [hp] at h
        cases hr : parseInstalledLines ls with
        | none => rw [hr] at h; exact absurd h (by simp)
        | some vs' =>
          rw [hr] at h
          simp only [Option.some.injEq] at h
          rw [← h]
          have hrec := ih vs' hr
          simp only [countRecords, countLines]
          by_cases hcur : v'.IsCurrent = true
          · have hstar := parseLine_isCurrent_star l v' hp hcur
            simp [hcur, hstar]
            omega
          · have hf : v'.IsCurrent = false := Bool.of_not_eq_true hcur
            simp [hf]
            split
            · omega
            · omega

/-- Counterexample for C2 as frozen: an input with two marker lines
yields two records with `IsCurrent = true`, so the unconditional "at
most one" part of the claim fails on the code. -/
theorem c2_counterexample :
    GetInstalledNodeVersions (.ok "* 1.0.0\n* 2.0.0".toList) =
      some (.ok [{ Version := "1.0.0".toList, IsCurrent := true },
                 { Version := "2.0.0".toList, IsCurrent := true }]) ∧
    countRecords (·.IsCurrent)
      [{ Version := "1.0.0".toList, IsCurrent := true },
       { Version := "2.0.0".toList, IsCurrent := true }] = 2 :=
  ⟨rfl, rfl⟩

/-- Claim C2 (amended): for inputs in which at most one line begins
(after trimming) with the marker `'*'`, the result sequence of
`GetInstalledNodeVersions` contains at most one record with
`IsCurrent = true`. -/
theorem c2_at_most_one_current (text : Str) (vs : List NodeVersion)
    (hcount : countLines (fun l => decide ((trim l).head? = some '*')) (splitLines text) ≤ 1)
    (hGI : GetInstalledNodeVersions (.ok text) = some (.ok vs)) :
    countRecords (·.IsCurrent) vs ≤ 1 := by
  have hp : parseInstalledLines (splitLines text) = some vs := by
    simp only [GetInstalledNodeVersions] at hGI
    cases hq : parseInstalledLines (splitLines text) with
    | none => rw [hq] at hGI; exact absurd hGI (by simp)
    | some vs' =>
      rw [hq] at hGI
      simp only [Option.some.injEq, Except.ok.injEq] at hGI
      rw [hGI]
  exact le_trans (parseInstalledLines_current_count _ _ hp) hcount

/-- Witness for C2 on the spec's own scenario input. -/
theorem c2_witness :
    countLines (fun l => decide ((trim l).head? = some '*'))
      (splitLines " * 18.16.0\n  16.20.0\n".toList) ≤ 1 ∧
    countRecords (·.IsCurrent)
      [{ Version := "18.16.0".toList, IsCurrent := true },
       { Version := "16.20.0".toList, IsCurrent := false }] ≤ 1 :=
  ⟨by decide, c2_at_most_one_current " * 18.16.0\n  16.20.0\n".toList _ (by decide) rfl⟩

theorem parseInstalledLines_total (ls : List Str)
    (h : ∀ l ∈ ls, parseLine l ≠ none) :
    ∃ vs, parseInstalledLines ls = some vs := by
  induction ls with
  | nil => exact ⟨[], rfl⟩
  | cons l rest ih =>
    obtain ⟨vs, hvs⟩ := ih fun x hx => h x (by simp [hx])
    cases hp : parseLine l with
    | none => exact absurd hp (h l (by simp))
    | some o =>
      cases o with
      | none => exact ⟨vs, by simp [parseInstalledLines, hp, hvs]⟩
      | some v => exact ⟨v :: vs, by simp [parseInstalledLines, hp, hvs]⟩

/-- Counterexample for C8 as frozen: the subprocess error is not
propagated unmodified — it is wrapped in a descriptive message, so the
returned error differs from the subprocess error. -/
theorem c8_counterexample :
    GetInstalledNodeVersions (.error "exit status 1".toList) =
      some (.error "Error fetching installed versions: exit status 1".toList) ∧
    "Error fetching installed versions: exit status 1".toList ≠ "exit status 1".toList :=
  ⟨rfl, by decide⟩

/-- Claim C8 (amended): `GetInstalledNodeVersions` returns an error
value exactly when the subprocess invocation fails, and that error wraps
the subprocess error in the message `"Error fetching installed
versions: …"` rather than propagating it unmodified; for successfully
obtained text in which every line still yields a token after filtering
and marker-stripping — in particular for empty text — it returns a
(possibly empty) record sequence with no error. -/
theorem c8_error_iff_subprocess :
    (∀ e : Str, GetInstalledNodeVersions (.error e) =
        some (.error ("Error fetching installed versions: ".toList ++ e))) ∧
    GetInstalledNodeVersions (.ok []) = some (.ok []) ∧
    (∀ text : Str, (∀ l ∈ splitLines text, parseLine l ≠ none) →
      ∃ vs, GetInstalledNodeVersions (.ok text) = some (.ok vs)) := by
  refine ⟨fun e => rfl, rfl, fun text h => ?_⟩
  obtain ⟨vs, hvs⟩ := parseInstalledLines_total _ h
  exact ⟨vs, by simp [GetInstalledNodeVersions, hvs]⟩

/-- Witness for C8 at a concrete error and a concrete well-behaved text. -/
theorem c8_witness :
    GetInstalledNodeVersions (.error "exit status 2".toList) =
      some (.error ("Error fetching installed versions: ".toList ++ "exit status 2".toList)) ∧
    GetInstalledNodeVersions (.ok []) = some (.ok []) ∧
    (∃ vs, GetInstalledNodeVersions (.ok "18.16.0\n".toList) = some (.ok vs)) :=
  ⟨c8_error_iff_subprocess.1 "exit status 2".toList,
   c8_error_iff_subprocess.2.1,
   c8_error_iff_subprocess.2.2 "18.16.0\n".toList (by decide)⟩

theorem fieldsAux_props (l : Str) : ∀ (acc : Str), (∀ c ∈ acc, isSpace c = false) →
    ∀ t ∈ fieldsAux l acc, t ≠ [] ∧ ∀ c ∈ t, isSpace c = false ∧ (c ∈ l ∨ c ∈ acc) := by
  induction l with
  | nil =>
    intro acc hacc t ht
    simp only [fieldsAux] at ht
    by_cases hae : acc.isEmpty = true
    · rw [if_pos hae] at ht
      exact absurd ht (List.not_mem_nil t)
    · rw [if_neg hae] at ht
      simp only [List.mem_singleton] at ht
      subst ht
      refine ⟨fun hnil => hae (by simp [hnil]), fun c hc => ⟨hacc c hc, Or.inr hc⟩⟩
  | cons x xs ih =>
    intro acc hacc t ht
    simp only [fieldsAux] at ht
    by_cases hsp : isSpace x = true
    · rw [if_pos hsp] at ht
      by_cases hae : acc.isEmpty = true
      · rw [if_pos hae] at ht
        obtain ⟨hne, hall⟩ := ih [] (by simp) t ht
        exact ⟨hne, fun c hc => ⟨(hall c hc).1,
          Or.elim (hall c hc).2 (fun hx => Or.inl (by simp [hx])) (fun hx => absurd hx (by simp))⟩⟩
      · rw [if_neg hae] at ht
        rcases List.mem_cons.mp ht with rfl | ht'
        · exact ⟨fun hnil => hae (by simp [hnil]), fun c hc => ⟨hacc c hc, Or.inr hc⟩⟩
        · obtain ⟨hne, hall⟩ := ih [] (by simp) t ht'
          exact ⟨hne, fun c hc => ⟨(hall c hc).1,
            Or.elim (hall c hc).2 (fun hx => Or.inl (by simp [hx])) (fun hx => absurd hx (by simp))⟩⟩
    · rw [if_neg hsp] at ht
      have hacc' : ∀ c ∈ acc ++ [x], isSpace c = false := by
        intro c hc
        rcases List.mem_append.mp hc with hc | hc
        · exact hacc c hc
        · simp only [List.mem_singleton] at hc
          subst hc
          exact Bool.of_not_eq_true hsp
      obtain ⟨hne, hall⟩ := ih (acc ++ [x]) hacc' t ht
      refine ⟨hne, fun c hc => ⟨(hall c hc).1, ?_⟩⟩
      rcases (hall c hc).2 with hx | hx
      · exact Or.inl (by simp [hx])
      · rcases List.mem_append.mp hx with hx | hx
        · exact Or.inr hx
        · simp only [List.mem_singleton] at hx
          exact Or.inl (by simp [hx])

theorem fieldsAux_head (l : Str) : ∀ (acc t : Str), acc ≠ [] →
    (fieldsAux l acc).head? = some t → t.head? = acc.head? := by
  induction l with
  | nil =>
    intro acc t hacc ht
    simp only [fieldsAux] at ht
    rw [if_neg (by simpa using hacc)] at ht
    simp only [List.head?_cons, Option.some.injEq] at ht
    rw [ht]
  | cons x xs ih =>
    intro acc t hacc ht
    simp only [fieldsAux] at ht
    by_cases hsp : isSpace x = true
    · rw [if_pos hsp, if_neg (by simpa using hacc)] at ht
      simp only [List.head?_cons, Option.some.injEq] at ht
      rw [ht]
    · rw [if_neg hsp] at ht
      have := ih (acc ++ [x]) t (by simp) ht
      rw [this]
      cases acc with
      | nil => exact absurd rfl hacc
      | cons a as => rfl

theorem dropWhile_head_nonspace (l : Str) (c : Char)
    (h : (l.dropWhile isSpace).head? = some c) : isSpace c = false := by
  induction l with
  | nil => exact absurd h (by simp)
  | cons x xs ih =>
    by_cases hx : isSpace x = true
    · rw [List.dropWhile_cons_of_pos hx] at h
      exact ih h
    · rw [List.dropWhile_cons_of_neg (by simpa using hx)] at h
      simp only [List.head?_cons, Option.some.injEq] at h
      rw [← h]
      exact Bool.of_not_eq_true hx

theorem trimRight_head? (m : Str) (c : Char)
    (h : (trimRight m).head? = some c) : m.head? = some c := by
  cases m with
  | nil => exact absurd h (by simp [trimRight])
  | cons x xs =>
    have hm : trimRight (x :: xs) =
        (if (trimRight xs).isEmpty && isSpace x then [] else x :: trimRight xs) := rfl
    rw [hm] at h
    split at h
    · exact absurd h (by simp)
    · simpa using h

theorem trim_head_nonspace (l : Str) (c : Char)
    (h : (trim l).head? = some c) : isSpace c = false :=
  dropWhile_head_nonspace l c (trimRight_head? _ c h)

theorem countChar_cons (ch x : Char) (xs : Str) :
    countChar ch (x :: xs) = (if x = ch then 1 else 0) + countChar ch xs := rfl

theorem countChar_trimRight_le (ch : Char) (l : Str) :
    countChar ch (trimRight l) ≤ countChar ch l := by
  induction l with
  | nil => exact Nat.le_refl 0
  | cons x xs ih =>
    have hm : trimRight (x :: xs) =
        (if (trimRight xs).isEmpty && isSpace x then [] else x :: trimRight xs) := rfl
    rw [hm]
    split
    · exact Nat.zero_le _
    · rw [countChar_cons, countChar_cons]
      omega

theorem countChar_dropWhile_le (ch : Char) (l : Str) :
    countChar ch (l.dropWhile isSpace) ≤ countChar ch l := by
  induction l with
  | nil => exact Nat.le_refl 0
  | cons x xs ih =>
    by_cases hx : isSpace x = true
    · rw [List.dropWhile_cons_of_pos hx, countChar_cons]
      omega
    · rw [List.dropWhile_cons_of_neg (by simpa using hx)]

theorem countChar_trim_le (ch : Char) (l : Str) :
    countChar ch (trim l) ≤ countChar ch l :=
  le_trans (countChar_trimRight_le ch _) (countChar_dropWhile_le ch l)

theorem countChar_zero_notMem (ch : Char) (l : Str)
    (h : countChar ch l = 0) : ch ∉ l := by
  induction l with
  | nil => exact List.not_mem_nil ch
  | cons x xs ih =>
    rw [countChar_cons] at h
    by_cases hx : x = ch
    · rw [if_pos hx] at h
      omega
    · rw [if_neg hx] at h
      intro hm
      rcases List.mem_cons.mp hm with hm | hm
      · exact hx hm.symm
      · exact ih (by omega) hm

theorem mem_of_head?_eq (l : Str) (c : Char) (h : l.head? = some c) : c ∈ l := by
  cases l with
  | nil => exact absurd h (by simp)
  | cons x xs =>
    simp only [List.head?_cons, Option.some.injEq] at h
    simp [← h]

theorem parseLine_version_wf (rawLine : Str) (v : NodeVersion)
    (hcnt : countChar '*' rawLine ≤ 1)
    (h : parseLine rawLine = some (some v)) :
    v.Version ≠ [] ∧ (∀ c ∈ v.Version, isSpace c = false) ∧
      v.Version.head? ≠ some '*' := by
  simp only [parseLine] at h
  by_cases hskip : ((trim rawLine).isEmpty || containsSub (trim rawLine) ['-', '>'] ||
      containsSub (trim rawLine) "default".toList ||
      containsSub (trim rawLine) "system".toList) = true
  · rw [if_pos hskip] at h
    exact absurd h (fun hh => Option.noConfusion (Option.some.inj hh))
  · rw [if_neg hskip] at h
    by_cases hstar : (trim rawLine).head? = some '*'
    · rw [if_pos hstar] at h
      cases hl : trim rawLine with
      | nil => rw [hl] at hstar; exact absurd hstar (by simp)
      | cons c rest =>
        have hc : c = '*' := by
          rw [hl] at hstar
          simpa using hstar
        subst hc
        have hrm : removeFirst '*' (trim rawLine) = rest := by
          rw [hl]
          simp [removeFirst]
        rw [hrm] at h
        have h1 : countChar '*' (trim rawLine) ≤ 1 :=
          le_trans (countChar_trim_le '*' rawLine) hcnt
        have h2 : countChar '*' rest = 0 := by
          rw [hl, countChar_cons] at h1
          simp at h1
          omega
        have h3 : countChar '*' (trim rest) = 0 :=
          Nat.le_zero.mp (h2 ▸ countChar_trim_le '*' rest)
        have hnm : '*' ∉ trim rest := countChar_zero_notMem '*' _ h3
        cases hf : fields (trim rest) with
        | nil => rw [hf] at h; exact Option.noConfusion h
        | cons tok toks =>
          rw [hf] at h
          simp only [Option.some.injEq] at h
          have htok : tok ∈ fieldsAux (trim rest) [] := by
            rw [show fieldsAux (trim rest) [] = fields (trim rest) from rfl, hf]
            simp
          obtain ⟨hne, hall⟩ := fieldsAux_props (trim rest) [] (by simp) tok htok
          have hver : v.Version = tok := by rw [← h]
          refine ⟨by rw [hver]; exact hne, ?_, ?_⟩
          · intro c hc
            rw [hver] at hc
            exact (hall c hc).1
          · rw [hver]
            intro hh
            have : '*' ∈ tok := mem_of_head?_eq tok '*' hh
            rcases (hall '*' this).2 with hx | hx
            · exact hnm hx
            · exact absurd hx (by simp)
    · rw [if_neg hstar] at h
      have hne : (trim rawLine).isEmpty = false := by
        cases hq : (trim rawLine).isEmpty with
        | false => rfl
        | true => exact absurd (by simp [hq]) hskip
      cases hl : trim rawLine with
      | nil => rw [hl] at hne; exact absurd hne (by simp)
      | cons c rest =>
        have hcs : isSpace c = false := by
          apply trim_head_nonspace rawLine
          rw [hl]
          rfl
        have hcstar : c ≠ '*' := by
          intro hcc
          apply hstar
          rw [hl, hcc]
          rfl
        have hfe : fields (trim rawLine) = fieldsAux rest [c] := by
          rw [hl]
          show fieldsAux (c :: rest) [] = fieldsAux rest [c]
          simp [fieldsAux, hcs]
        rw [hfe] at h
        cases hf : fieldsAux rest [c] with
        | nil => rw [hf] at h; exact Option.noConfusion h
        | cons tok toks =>
          rw [hf] at h
          simp only [Option.some.injEq] at h
          obtain ⟨hne', hall⟩ := fieldsAux_props rest [c] (by simpa using hcs) tok
            (by rw [hf]; simp)
          have hhd : tok.head? = some c := by
            have := fieldsAux_head rest [c] tok (by simp) (by rw [hf]; rfl)
            simpa using this
          have hver : v.Version = tok := by rw [← h]
          refine ⟨by rw [hver]; exact hne', ?_, ?_⟩
          · intro x hx
            rw [hver] at hx
            exact (hall x hx).1
          · rw [hver, hhd]
            intro hh
            exact hcstar (by simpa using hh)

theorem parseInstalledLines_mem (ls : List Str) (vs : List NodeVersion)
    (h : parseInstalledLines ls = some vs) :
    ∀ v ∈ vs, ∃ l ∈ ls, parseLine l = some (some v) := by
  induction ls generalizing vs with
  | nil =>
    simp only [parseInstalledLines, Option.some.injEq] at h
    intro v hv
    rw [← h] at hv
    exact absurd hv (List.not_mem_nil v)
  | cons l rest ih =>
    simp only [parseInstalledLines] at h
    intro v hv
    cases hp : parseLine l with
    | none => rw [hp] at h; exact absurd h (by simp)
    | some o =>
      cases o with
      | none =>
        rw [hp] at h
        obtain ⟨l', hl', hpl'⟩ := ih vs h v hv
        exact ⟨l', by simp [hl'], hpl'⟩
      | some v' =>
        rw [hp] at h
        cases hr : parseInstalledLines rest with
        | none => rw [hr] at h; exact absurd h (by simp)
        | some vs' =>
          rw [hr] at h
          simp only [Option.some.injEq] at h
          rw [← h] at hv
          rcases List.mem_cons.mp hv with rfl | hv'
          · exact ⟨l, by simp, hp⟩
          · obtain ⟨l', hl', hpl'⟩ := ih vs' hr v hv'
            exact ⟨l', by simp [hl'], hpl'⟩

/-- Counterexample for C6 as frozen: a line carrying two marker
characters (`"** 1.2.3"`) produces the record `{"*", true}` — a version
string that *is* a leading marker character, because the code strips
only the first `'*'` and then takes the first whitespace-delimited
token. -/
theorem c6_counterexample :
    GetInstalledNodeVersions (.ok "** 1.2.3".toList) =
      some (.ok [{ Version := ['*'], IsCurrent := true }]) ∧
    (['*'] : Str).head? = some '*' :=
  ⟨rfl, rfl⟩

/-- Claim C6 (amended): for installed-listing inputs in which no line
contains more than one marker character `'*'`, every record produced by
`GetInstalledNodeVersions` has a version string that is a non-empty,
whitespace-free token that does not begin with `'*'`. -/
theorem c6_version_tokens (text : Str) (vs : List NodeVersion)
    (hcnt : ∀ l ∈ splitLines text, countChar '*' l ≤ 1)
    (hGI : GetInstalledNodeVersions (.ok text) = some (.ok vs)) :
    ∀ v ∈ vs, v.Version ≠ [] ∧ (∀ c ∈ v.Version, isSpace c = false) ∧
      v.Version.head? ≠ some '*' := by
  have hp : parseInstalledLines (splitLines text) = some vs := by
    simp only [GetInstalledNodeVersions] at hGI
    cases hq : parseInstalledLines (splitLines text) with
    | none => rw [hq] at hGI; exact absurd hGI (by simp)
    | some vs' =>
      rw [hq] at hGI
      simp only [Option.some.injEq, Except.ok.injEq] at hGI
      rw [hGI]
  intro v hv
  obtain ⟨l, hl, hpl⟩ := parseInstalledLines_mem _ _ hp v hv
  exact parseLine_version_wf l v (hcnt l hl) hpl

/-- Witness for C6 on the spec's scenario input. -/
theorem c6_witness :
    (∀ l ∈ splitLines " * 18.16.0\n  16.20.0\n".toList, countChar '*' l ≤ 1) ∧
    (∀ v ∈ [{ Version := "18.16.0".toList, IsCurrent := true },
            { Version := "16.20.0".toList, IsCurrent := false }],
      NodeVersion.Version v ≠ [] ∧ (∀ c ∈ NodeVersion.Version v, isSpace c = false) ∧
        (NodeVersion.Version v).head? ≠ some '*') :=
  ⟨by decide, c6_version_tokens " * 18.16.0\n  16.20.0\n".toList _ (by decide) rfl⟩

theorem digit_not_space (c : Char) (h : c.isDigit = true) : isSpace c = false := by
  cases hs : isSpace c with
  | false => rfl
  | true =>
    exfalso
    simp only [isSpace, Bool.or_eq_true, decide_eq_true_eq] at hs
    rcases hs with ((((h1 | h1) | h1) | h1) | h1) | h1 <;>
      (subst h1; exact absurd h (by decide))

theorem takeWhile_all_digits (l : Str) (h : l.all Char.isDigit = true) :
    l.takeWhile Char.isDigit = l := by
  induction l with
  | nil => rfl
  | cons c cs ih =>
    simp only [List.all_cons, Bool.and_eq_true] at h
    rw [List.takeWhile_cons_of_pos h.1, ih h.2]

theorem doubleOfInt_small (z : Int) (h : z.natAbs < 2 ^ 53) :
    doubleOfInt z = .num z := by
  unfold doubleOfInt
  rw [if_pos h]

theorem parseIntJS_digits (a : Str) (hne : a ≠ []) (hall : a.all Char.isDigit = true) :
    parseIntJS a = doubleOfInt ((digitsToNat a : Nat) : Int) := by
  cases a with
  | nil => exact absurd rfl hne
  | cons c r =>
    simp only [List.all_cons, Bool.and_eq_true] at hall
    have hdrop : (c :: r).dropWhile isSpace = c :: r :=
      List.dropWhile_cons_of_neg (by simp [digit_not_space c hall.1])
    have htake : (c :: r).takeWhile Char.isDigit = c :: r :=
      takeWhile_all_digits _ (by simp [List.all_cons, hall.1, hall.2])
    simp only [parseIntJS, hdrop]
    split
    · rename_i r' heq
      injection heq with h1 h2
      rw [h1] at hall
      exact absurd hall.1 (by decide)
    · rename_i r' heq
      injection heq with h1 h2
      rw [h1] at hall
      exact absurd hall.1 (by decide)
    · simp only [digitsVal, htake]

theorem parseVersion_wf (v : Str) (h : wellFormedVer v = true)
    (hb1 : (semTriple v).1 < 2 ^ 53) (hb2 : (semTriple v).2.1 < 2 ^ 53)
    (hb3 : (semTriple v).2.2 < 2 ^ 53) :
    parseVersion v = (.num ((semTriple v).1 : Int), .num ((semTriple v).2.1 : Int),
      .num ((semTriple v).2.2 : Int)) := by
  rcases hs : splitOnChar '.' v with _ | ⟨a, _ | ⟨b, _ | ⟨c, _ | ⟨d, t⟩⟩⟩⟩
  · simp [wellFormedVer, hs] at h
  · simp [wellFormedVer, hs] at h
  · simp [wellFormedVer, hs] at h
  · simp only [wellFormedVer, hs] at h
    simp only [Bool.and_eq_true, Bool.not_eq_true', List.isEmpty_eq_false] at h
    obtain ⟨⟨⟨⟨⟨h1, h2⟩, h3⟩, h4⟩, h5⟩, h6⟩ := h
    simp only [semTriple, hs] at hb1 hb2 hb3
    simp only [parseVersion, semTriple, hs, List.map_cons, List.map_nil]
    rw [show ([parseIntJS a, parseIntJS b, parseIntJS c].getD 0 .undef) = parseIntJS a from rfl,
      show ([parseIntJS a, parseIntJS b, parseIntJS c].getD 1 .undef) = parseIntJS b from rfl,
      show ([parseIntJS a, parseIntJS b, parseIntJS c].getD 2 .undef) = parseIntJS c from rfl,
      parseIntJS_digits a h1 h4, parseIntJS_digits b h2 h5, parseIntJS_digits c h3 h6,
      doubleOfInt_small _ (by simpa using hb1), doubleOfInt_small _ (by simpa using hb2),
      doubleOfInt_small _ (by simpa using hb3)]
  · simp [wellFormedVer, hs] at h

theorem compareVersions_eval (a b : Str) (a1 a2 a3 b1 b2 b3 : Nat)
    (ha1 : a1 < 2 ^ 53) (ha2 : a2 < 2 ^ 53) (ha3 : a3 < 2 ^ 53)
    (hb1 : b1 < 2 ^ 53) (hb2 : b2 < 2 ^ 53) (hb3 : b3 < 2 ^ 53)
    (hpa : parseVersion a = (.num (a1 : Int), .num (a2 : Int), .num (a3 : Int)))
    (hpb : parseVersion b = (.num (b1 : Int), .num (b2 : Int), .num (b3 : Int))) :
    compareVersions a b =
      (if a1 ≠ b1 then .num ((b1 : Int) - (a1 : Int))
       else if a2 ≠ b2 then .num ((b2 : Int) - (a2 : Int))
       else .num ((b3 : Int) - (a3 : Int))) := by
  have hs1 : doubleOfInt ((b1 : Int) - (a1 : Int)) = .num ((b1 : Int) - (a1 : Int)) :=
    doubleOfInt_small _ (by omega)
  have hs2 : doubleOfInt ((b2 : Int) - (a2 : Int)) = .num ((b2 : Int) - (a2 : Int)) :=
    doubleOfInt_small _ (by omega)
  have hs3 : doubleOfInt ((b3 : Int) - (a3 : Int)) = .num ((b3 : Int) - (a3 : Int)) :=
    doubleOfInt_small _ (by omega)
  simp only [compareVersions, hpa, hpb, jsStrictNeq, jsSub, hs1, hs2, hs3]
  by_cases e1 : a1 = b1 <;> by_cases e2 : a2 = b2 <;> simp [e1, e2]

set_option maxRecDepth 100000 in
/-- Counterexample for C5 as frozen: `parseInt` returns an IEEE-754
double, so the two distinct well-formed versions
`"9007199254740992.0.0"` and `"9007199254740993.0.0"` (majors `2^53`
and `2^53 + 1`) parse to the same number and the comparator returns
`0` — the order is not consistent with semantic-version precedence on
all well-formed strings. -/
theorem c5_counterexample :
    wellFormedVer "9007199254740992.0.0".toList = true ∧
    wellFormedVer "9007199254740993.0.0".toList = true ∧
    compareVersions "9007199254740992.0.0".toList "9007199254740993.0.0".toList =
      JsNum.num 0 ∧
    semTriple "9007199254740992.0.0".toList ≠ semTriple "9007199254740993.0.0".toList :=
  ⟨by decide, by decide, rfl, by decide⟩

/-- Claim C5 (amended): the comparator parses each version string into
its (major, minor, patch) numbers and, for well-formed `"X.Y.Z"`
strings whose components are below `2^53` (the range in which
`parseInt`'s double result is exact), it orders descending by major,
then minor, then patch: the comparator result is non-positive exactly
under descending semantic-version precedence and zero exactly on equal
triples, and `Sort(["14.17.0","16.0.0","14.2.1"])` is
`["16.0.0","14.17.0","14.2.1"]`.  At or above `2^53` distinct
components can collapse to the same double, so the restriction is
necessary. -/
theorem c5_sort_semver :
    (∀ a b : Str, wellFormedVer a = true → wellFormedVer b = true →
      (semTriple a).1 < 2 ^ 53 → (semTriple a).2.1 < 2 ^ 53 → (semTriple a).2.2 < 2 ^ 53 →
      (semTriple b).1 < 2 ^ 53 → (semTriple b).2.1 < 2 ^ 53 → (semTriple b).2.2 < 2 ^ 53 →
      ((jsLeB (compareVersions a b) = true ↔ semGe (semTriple a) (semTriple b)) ∧
       (compareVersions a b = JsNum.num 0 ↔ semTriple a = semTriple b))) ∧
    sortVersions ["14.17.0".toList, "16.0.0".toList, "14.2.1".toList] =
      ["16.0.0".toList, "14.17.0".toList, "14.2.1".toList] := by
  constructor
  · intro a b ha hb hA1 hA2 hA3 hB1 hB2 hB3
    have hpa := parseVersion_wf a ha hA1 hA2 hA3
    have hpb := parseVersion_wf b hb hB1 hB2 hB3
    rcases hta : semTriple a with ⟨a1, a2, a3⟩
    rcases htb : semTriple b with ⟨b1, b2, b3⟩
    rw [hta] at hpa hA1 hA2 hA3
    rw [htb] at hpb hB1 hB2 hB3
    dsimp only at hpa hpb hA1 hA2 hA3 hB1 hB2 hB3
    rw [compareVersions_eval a b a1 a2 a3 b1 b2 b3 hA1 hA2 hA3 hB1 hB2 hB3 hpa hpb]
    constructor
    · split_ifs with h1 h2
      · simp only [jsLeB, decide_eq_true_eq, semGe]
        omega
      · simp only [jsLeB, decide_eq_true_eq, semGe]
        omega
      · simp only [jsLeB, decide_eq_true_eq, semGe]
        omega
    · split_ifs with h1 h2
      · simp only [JsNum.num.injEq, Prod.mk.injEq]
        omega
      · simp only [JsNum.num.injEq, Prod.mk.injEq]
        omega
      · simp only [JsNum.num.injEq, Prod.mk.injEq]
        omega
  · decide

/-- Witness for C5 at two concrete well-formed version strings with
small components. -/
theorem c5_witness :
    wellFormedVer "16.0.0".toList = true ∧ wellFormedVer "14.17.0".toList = true ∧
    ((jsLeB (compareVersions "16.0.0".toList "14.17.0".toList) = true ↔
        semGe (semTriple "16.0.0".toList) (semTriple "14.17.0".toList)) ∧
     (compareVersions "16.0.0".toList "14.17.0".toList = JsNum.num 0 ↔
        semTriple "16.0.0".toList = semTriple "14.17.0".toList)) :=
  ⟨by decide, by decide,
   c5_sort_semver.1 "16.0.0".toList "14.17.0".toList (by decide) (by decide)
     (by decide) (by decide) (by decide) (by decide) (by decide) (by decide)⟩
